import Mathlib

/-!
Verification of the Relationship Indexer of `line-of-business.py`.

The core of the repository is the function `load_and_process_data`, which
consumes a table of rows with five fields (Carrier, Brokers to,
Brokers through, broker entity of, relationship owner) and produces a
per-carrier index of four deduplicated sorted string sequences, plus four
global sets.  We embed the aggregation loop (lines 99-156 of the source),
the column validation (lines 80-96), the parse step (lines 74-78, with the
external reader abstracted as a parameter) and the CSV export of selected
carriers (`download_rows`, lines 310-327).

Python strings are modelled as Lean `String` (a sequence of characters);
Python's `str.strip`, `str.split(',')` and `", ".join` are embedded as
explicit functions on the underlying character list.  Missing cells
(pandas `NaN`, where `pd.notna` is false) are modelled as `none`.
Python's string comparison (used by `sorted`) is lexicographic on code
points, embedded as `List.Lex (· < ·)` on the character lists.
-/

namespace LineOfBusiness

/-! ### Python string primitives -/

/-- Left strip on a character list: drop leading whitespace. -/
def lstripL (l : List Char) : List Char := l.dropWhile Char.isWhitespace

/-- Embedding of Python `str.strip()` on the character list: drop whitespace
from the left, then from the right (via reversal). -/
def stripL (l : List Char) : List Char :=
  ((lstripL l).reverse.dropWhile Char.isWhitespace).reverse

/-- Embedding of Python `str.strip()`. -/
def pyStrip (s : String) : String := ⟨stripL s.data⟩

/-- Embedding of Python `str.split(',')` on the character list: every comma
is a separator, empty parts are kept, and the result always has one more
part than there are commas. -/
def splitCommaL : List Char → List (List Char)
  | [] => [[]]
  | c :: cs =>
    if c = ',' then [] :: splitCommaL cs
    else
      match splitCommaL cs with
      | [] => [[c]]
      | p :: ps => (c :: p) :: ps

/-- Embedding of Python `", ".join` on character lists. -/
def joinCommaSpaceL : List (List Char) → List Char
  | [] => []
  | [x] => x
  | x :: y :: xs => x ++ (',' :: ' ' :: joinCommaSpaceL (y :: xs))

/-- Embedding of Python `", ".join(l)` for strings. -/
def pyJoinComma (l : List String) : String := ⟨joinCommaSpaceL (l.map String.data)⟩

/-! ### The string order used by Python's `sorted`

Python compares strings lexicographically by code point; `sorted` arranges
ascending.  `charLt` is the code-point order on characters and `strLe` the
induced non-strict lexicographic order on strings. -/

def charLt : Char → Char → Prop := (· < ·)

instance : DecidableRel charLt := fun a b => inferInstanceAs (Decidable (a < b))

instance : IsStrictTotalOrder Char charLt :=
  inferInstanceAs (IsStrictTotalOrder Char (· < ·))

/-- `s ≤ t` in Python's string order: `t` is not lexicographically
smaller than `s`. -/
def strLe (s t : String) : Prop := ¬ List.Lex charLt t.data s.data

instance : DecidableRel strLe := fun _ _ => instDecidableNot

instance : IsTrans String strLe where
  trans := by
    intro a b c hab hbc hl
    rcases trichotomous_of (List.Lex charLt) b.data a.data with h | h | h
    · exact hab h
    · exact hbc (h ▸ hl)
    · exact hbc (trans_of (List.Lex charLt) hl h)

instance : IsAntisymm String strLe where
  antisymm := by
    intro a b hab hba
    rcases trichotomous_of (List.Lex charLt) a.data b.data with h | h | h
    · exact absurd h hba
    · cases a; cases b; exact congrArg String.mk h
    · exact absurd h hab

instance : IsTotal String strLe where
  total := by
    intro a b
    by_cases h : List.Lex charLt b.data a.data
    · right; intro h2; exact asymm_of (List.Lex charLt) h h2
    · left; exact h

/-- Embedding of Python `sorted(list(s))` for a set of strings: the unique
ascending enumeration of the set's members. -/
def sortedList (s : Finset String) : List String :=
  Quot.liftOn s.val (fun l => List.insertionSort strLe l) (fun l₁ l₂ h => by
    refine List.eq_of_perm_of_sorted (r := strLe) ?_ ?_ ?_
    · exact ((List.perm_insertionSort strLe l₁).trans h).trans
        (List.perm_insertionSort strLe l₂).symm
    · exact List.sorted_insertionSort strLe l₁
    · exact List.sorted_insertionSort strLe l₂)

/-! ### Data model

One row of the source table.  A field is `none` when the cell is missing
(`pd.isna` holds), `some s` otherwise. -/

structure Row where
  carrier : Option String
  brokersTo : Option String
  brokersThrough : Option String
  brokerEntityOf : Option String
  relationshipOwner : Option String
deriving DecidableEq, Repr

/-- Lines 106-109 of the source: `carrier = str(row['Carrier']).strip() if
pd.notna(...) else "Unnamed Carrier"`, and an empty string also collapses to
`"Unnamed Carrier"`. -/
def effCarrier (r : Row) : String :=
  match r.carrier with
  | none => "Unnamed Carrier"
  | some s => if pyStrip s = "" then "Unnamed Carrier" else pyStrip s

/-- `pd.isna(row[col]) or not str(row[col]).strip()` for one cell. -/
def cellBlank : Option String → Bool
  | none => true
  | some s => pyStrip s = ""

/-- Lines 111-112: a row is skipped when its carrier collapses to
`"Unnamed Carrier"` and the four relationship cells are all blank. -/
def rowSkipped (r : Row) : Bool :=
  effCarrier r = "Unnamed Carrier" && cellBlank r.brokersTo &&
    cellBlank r.brokersThrough && cellBlank r.brokerEntityOf &&
    cellBlank r.relationshipOwner

/-- Lines 126-128 / 133-135: a delimited cell's tokens — strip the cell,
skip it when falsy, otherwise split on commas, strip each part and keep the
non-empty ones. -/
def listTokens : Option String → List String
  | none => []
  | some s =>
    let v := pyStrip s
    if v = "" then []
    else ((splitCommaL v.data).map (fun p => (⟨stripL p⟩ : String))).filter
      (fun b => b ≠ "")

/-- Lines 140-141 / 146-147: a scalar cell's token — the stripped value when
non-empty, nothing otherwise. -/
def scalarToken : Option String → List String
  | none => []
  | some s =>
    let v := pyStrip s
    if v = "" then [] else [v]

/-- The four per-carrier sets held in `carrier_data[carrier]`. -/
@[ext]
structure Entry where
  brokersTo : Finset String
  brokersThrough : Finset String
  brokerEntityOf : Finset String
  relationshipOwner : Finset String
deriving DecidableEq

def emptyEntry : Entry := ⟨∅, ∅, ∅, ∅⟩

/-- The aggregation state of the loop at lines 99-149: the set of keys of
the `carrier_data` dictionary, the entry stored under each key (an absent
key holds the empty entry), and the four global accumulator sets. -/
@[ext]
structure AggState where
  keys : Finset String
  data : String → Entry
  allBrokersTo : Finset String
  allBrokersThrough : Finset String
  allBrokerEntities : Finset String
  allRelationshipOwners : Finset String

def initState : AggState := ⟨∅, fun _ => emptyEntry, ∅, ∅, ∅, ∅⟩

/-- Lines 126-149: the tokens of one row are united into the row's carrier
entry. -/
def augmentEntry (e : Entry) (r : Row) : Entry :=
  ⟨e.brokersTo ∪ (listTokens r.brokersTo).toFinset,
   e.brokersThrough ∪ (listTokens r.brokersThrough).toFinset,
   e.brokerEntityOf ∪ (scalarToken r.brokerEntityOf).toFinset,
   e.relationshipOwner ∪ (scalarToken r.relationshipOwner).toFinset⟩

/-- One iteration of the row loop (lines 105-149). -/
def processRow (st : AggState) (r : Row) : AggState :=
  if rowSkipped r then st
  else
    let c := effCarrier r
    { keys := insert c st.keys
      data := Function.update st.data c (augmentEntry (st.data c) r)
      allBrokersTo := st.allBrokersTo ∪ (listTokens r.brokersTo).toFinset
      allBrokersThrough := st.allBrokersThrough ∪ (listTokens r.brokersThrough).toFinset
      allBrokerEntities := st.allBrokerEntities ∪ (scalarToken r.brokerEntityOf).toFinset
      allRelationshipOwners :=
        st.allRelationshipOwners ∪ (scalarToken r.relationshipOwner).toFinset }

/-- The whole aggregation loop over the table's rows. -/
def processTable (rows : List Row) : AggState := rows.foldl processRow initState

/-- A carrier's final index entry: the four sorted sequences
(lines 151-154 convert every set to a sorted list). -/
structure EntryOut where
  brokersTo : List String
  brokersThrough : List String
  brokerEntityOf : List String
  relationshipOwner : List String
deriving DecidableEq, Repr

def entryOut (e : Entry) : EntryOut :=
  ⟨sortedList e.brokersTo, sortedList e.brokersThrough,
   sortedList e.brokerEntityOf, sortedList e.relationshipOwner⟩

/-- All tokens stored in a carrier entry, over the four fields. -/
def allEntryTokens (e : Entry) : Finset String :=
  e.brokersTo ∪ e.brokersThrough ∪ e.brokerEntityOf ∪ e.relationshipOwner

/-! ### Column validation and failure conditions (lines 74-96) -/

/-- Lines 82-88: the five required column headers. -/
def expectedColumns : List String :=
  ["Carrier", "Brokers to", "Brokers through", "broker entity of",
   "relationship owner"]

/-- Lines 80 and 92: headers are stripped, then the required columns that
are absent are collected, in the order of `expectedColumns`. -/
def missingColumns (headers : List String) : List String :=
  expectedColumns.filter (fun c => ! (headers.map pyStrip).contains c)

/-- The failure conditions of the upload path: line 93 (missing required
columns, surfaced with the list of missing names, `st.stop`) and lines 76-78
(the reader raising on undecodable bytes). -/
inductive LoadError where
  | schemaError (missing : List String)
  | parseError (msg : String)
deriving DecidableEq, Repr

/-- The decoded table: its column headers and its rows. -/
structure RawTable where
  headers : List String
  rows : List Row
deriving DecidableEq, Repr

/-- Lines 80-156 after the reader: validate the columns, then aggregate the
rows.  No row is processed when a required column is missing. -/
def build_index (t : RawTable) : Except LoadError AggState :=
  if missingColumns t.headers = [] then .ok (processTable t.rows)
  else .error (.schemaError (missingColumns t.headers))

/-- Lines 72-156, whole function `load_and_process_data`.  The external
reader (`pd.read_csv` / `pd.read_excel`, chosen by the declared file type)
is a parameter; it returns the decoded table or the decode failure reason,
which the function surfaces.  Nothing is returned on failure. -/
def load_and_process_data (readTable : List (Fin 256) → String → Except String RawTable)
    (fileBytes : List (Fin 256)) (fileType : String) : Except LoadError AggState :=
  match readTable fileBytes fileType with
  | .error msg => .error (.parseError msg)
  | .ok t => build_index t

/-- Lines 321-327: the CSV row exported for one selected carrier — the four
sorted sequences of its entry rejoined with `", "`. -/
def downloadRow (c : String) (e : Entry) : Row :=
  ⟨some c, some (pyJoinComma (sortedList e.brokersTo)),
   some (pyJoinComma (sortedList e.brokersThrough)),
   some (pyJoinComma (sortedList e.brokerEntityOf)),
   some (pyJoinComma (sortedList e.relationshipOwner))⟩

/-! ### Properties of the sorted enumeration -/

theorem sortedList_sorted (s : Finset String) : (sortedList s).Sorted strLe := by
  rcases s with ⟨val, h⟩
  induction val using Quot.ind with
  | _ l => exact List.sorted_insertionSort strLe l

theorem mem_sortedList {s : Finset String} {t : String} :
    t ∈ sortedList s ↔ t ∈ s := by
  rcases s with ⟨val, h⟩
  induction val using Quot.ind with
  | _ l => exact (List.perm_insertionSort strLe l).mem_iff

theorem sortedList_nodup (s : Finset String) : (sortedList s).Nodup := by
  rcases s with ⟨val, h⟩
  induction val using Quot.ind with
  | _ l => exact ((List.perm_insertionSort strLe l).nodup_iff).mpr h

theorem sortedList_toFinset (s : Finset String) : (sortedList s).toFinset = s := by
  ext t
  rw [List.mem_toFinset, mem_sortedList]

theorem sortedList_empty : sortedList ∅ = [] := rfl

/-! ### Step lemmas for the row loop -/

theorem processRow_of_skipped (st : AggState) (r : Row) (h : rowSkipped r = true) :
    processRow st r = st := by
  simp [processRow, h]

theorem processRow_keys (st : AggState) (r : Row) (h : rowSkipped r = false) :
    (processRow st r).keys = insert (effCarrier r) st.keys := by
  simp [processRow, h]

theorem processRow_data (st : AggState) (r : Row) (h : rowSkipped r = false)
    (c : String) :
    (processRow st r).data c =
      if c = effCarrier r then augmentEntry (st.data c) r else st.data c := by
  by_cases hc : c = effCarrier r
  · subst hc
    simp [processRow, h, Function.update_same]
  · rw [if_neg hc]
    simp [processRow, h, Function.update_noteq hc]

/-- Membership in the entry stored for a carrier, after folding the loop
over any row list from any starting state.  `F` projects one of the four
sets out of an entry and `T` lists the corresponding tokens of a row. -/
theorem mem_data_foldl (F : Entry → Finset String) (T : Row → List String)
    (hF : ∀ e r, F (augmentEntry e r) = F e ∪ (T r).toFinset)
    (rows : List Row) (st : AggState) (c t : String) :
    t ∈ F ((rows.foldl processRow st).data c) ↔
      t ∈ F (st.data c) ∨
        ∃ r ∈ rows, rowSkipped r = false ∧ effCarrier r = c ∧ t ∈ T r := by
  induction rows generalizing st with
  | nil => simp
  | cons r rs ih =>
    rw [List.foldl_cons, ih]
    simp only [List.mem_cons, exists_eq_or_imp]
    rcases h : rowSkipped r with hf | ht
    · rw [processRow_data st r h c]
      by_cases hc : c = effCarrier r
      · subst hc
        rw [if_pos rfl, hF, Finset.mem_union, List.mem_toFinset]
        tauto
      · rw [if_neg hc]
        have : ¬(rowSkipped r = false ∧ effCarrier r = c ∧ t ∈ T r) := by
          rintro ⟨-, h2, -⟩; exact hc h2.symm
        tauto
    · rw [processRow_of_skipped st r h]
      have : ¬(rowSkipped r = false ∧ effCarrier r = c ∧ t ∈ T r) := by
        rintro ⟨h1, -, -⟩; rw [h] at h1; cases h1
      tauto

/-- Membership in the key set of the carrier dictionary, after folding the
loop over any row list from any starting state. -/
theorem mem_keys_foldl (rows : List Row) (st : AggState) (c : String) :
    c ∈ (rows.foldl processRow st).keys ↔
      c ∈ st.keys ∨ ∃ r ∈ rows, rowSkipped r = false ∧ effCarrier r = c := by
  induction rows generalizing st with
  | nil => simp
  | cons r rs ih =>
    rw [List.foldl_cons, ih]
    simp only [List.mem_cons, exists_eq_or_imp]
    rcases h : rowSkipped r with hf | ht
    · rw [processRow_keys st r h, Finset.mem_insert]
      tauto
    · rw [processRow_of_skipped st r h]
      have : ¬(rowSkipped r = false ∧ effCarrier r = c) := by
        rintro ⟨h1, -⟩; rw [h] at h1; cases h1
      tauto

/-- Membership in one of the four global sets, after folding the loop over
any row list from any starting state.  `G` projects the global set out of
the state and `T` lists the corresponding tokens of a row. -/
theorem mem_global_foldl (G : AggState → Finset String) (T : Row → List String)
    (hG : ∀ st r, rowSkipped r = false →
      G (processRow st r) = G st ∪ (T r).toFinset)
    (rows : List Row) (st : AggState) (t : String) :
    t ∈ G (rows.foldl processRow st) ↔
      t ∈ G st ∨ ∃ r ∈ rows, rowSkipped r = false ∧ t ∈ T r := by
  induction rows generalizing st with
  | nil => simp
  | cons r rs ih =>
    rw [List.foldl_cons, ih]
    simp only [List.mem_cons, exists_eq_or_imp]
    rcases h : rowSkipped r with hf | ht
    · rw [hG st r h, Finset.mem_union, List.mem_toFinset]
      tauto
    · rw [processRow_of_skipped st r h]
      have : ¬(rowSkipped r = false ∧ t ∈ T r) := by
        rintro ⟨h1, -⟩; rw [h] at h1; cases h1
      tauto

theorem initState_data (c : String) : initState.data c = emptyEntry := rfl

/-! ### Membership characterizations at `processTable` -/

theorem mem_keys_processTable (rows : List Row) (c : String) :
    c ∈ (processTable rows).keys ↔
      ∃ r ∈ rows, rowSkipped r = false ∧ effCarrier r = c := by
  rw [processTable, mem_keys_foldl]
  simp [initState]

theorem mem_brokersTo_data (rows : List Row) (c t : String) :
    t ∈ ((processTable rows).data c).brokersTo ↔
      ∃ r ∈ rows, rowSkipped r = false ∧ effCarrier r = c ∧
        t ∈ listTokens r.brokersTo := by
  rw [processTable,
    mem_data_foldl Entry.brokersTo (fun r => listTokens r.brokersTo)
      (fun e r => rfl)]
  simp [initState, emptyEntry]

theorem mem_brokersThrough_data (rows : List Row) (c t : String) :
    t ∈ ((processTable rows).data c).brokersThrough ↔
      ∃ r ∈ rows, rowSkipped r = false ∧ effCarrier r = c ∧
        t ∈ listTokens r.brokersThrough := by
  rw [processTable,
    mem_data_foldl Entry.brokersThrough (fun r => listTokens r.brokersThrough)
      (fun e r => rfl)]
  simp [initState, emptyEntry]

theorem mem_brokerEntityOf_data (rows : List Row) (c t : String) :
    t ∈ ((processTable rows).data c).brokerEntityOf ↔
      ∃ r ∈ rows, rowSkipped r = false ∧ effCarrier r = c ∧
        t ∈ scalarToken r.brokerEntityOf := by
  rw [processTable,
    mem_data_foldl Entry.brokerEntityOf (fun r => scalarToken r.brokerEntityOf)
      (fun e r => rfl)]
  simp [initState, emptyEntry]

theorem mem_relationshipOwner_data (rows : List Row) (c t : String) :
    t ∈ ((processTable rows).data c).relationshipOwner ↔
      ∃ r ∈ rows, rowSkipped r = false ∧ effCarrier r = c ∧
        t ∈ scalarToken r.relationshipOwner := by
  rw [processTable,
    mem_data_foldl Entry.relationshipOwner (fun r => scalarToken r.relationshipOwner)
      (fun e r => rfl)]
  simp [initState, emptyEntry]

theorem mem_allBrokersTo (rows : List Row) (t : String) :
    t ∈ (processTable rows).allBrokersTo ↔
      ∃ r ∈ rows, rowSkipped r = false ∧ t ∈ listTokens r.brokersTo := by
  rw [processTable,
    mem_global_foldl AggState.allBrokersTo (fun r => listTokens r.brokersTo)
      (fun st r h => by simp [processRow, h])]
  simp [initState]

theorem mem_allBrokersThrough (rows : List Row) (t : String) :
    t ∈ (processTable rows).allBrokersThrough ↔
      ∃ r ∈ rows, rowSkipped r = false ∧ t ∈ listTokens r.brokersThrough := by
  rw [processTable,
    mem_global_foldl AggState.allBrokersThrough
      (fun r => listTokens r.brokersThrough) (fun st r h => by simp [processRow, h])]
  simp [initState]

theorem mem_allBrokerEntities (rows : List Row) (t : String) :
    t ∈ (processTable rows).allBrokerEntities ↔
      ∃ r ∈ rows, rowSkipped r = false ∧ t ∈ scalarToken r.brokerEntityOf := by
  rw [processTable,
    mem_global_foldl AggState.allBrokerEntities
      (fun r => scalarToken r.brokerEntityOf) (fun st r h => by simp [processRow, h])]
  simp [initState]

theorem mem_allRelationshipOwners (rows : List Row) (t : String) :
    t ∈ (processTable rows).allRelationshipOwners ↔
      ∃ r ∈ rows, rowSkipped r = false ∧ t ∈ scalarToken r.relationshipOwner := by
  rw [processTable,
    mem_global_foldl AggState.allRelationshipOwners
      (fun r => scalarToken r.relationshipOwner) (fun st r h => by simp [processRow, h])]
  simp [initState]

/-! ### Properties of `strip`, `split` and `join` -/

theorem dropWhile_head_not {α} (p : α → Bool) (l : List α) (c : α) (cs : List α)
    (h : l.dropWhile p = c :: cs) : p c = false := by
  induction l with
  | nil => cases h
  | cons a l ih =>
    cases hp : p a with
    | true => rw [List.dropWhile_cons_of_pos hp] at h; exact ih h
    | false =>
      rw [List.dropWhile_cons_of_neg (by simp [hp])] at h
      cases h; exact hp

theorem dropWhile_eq_self_of_append {α} (p : α → Bool) (x y : List α)
    (hx : x.dropWhile p = x) (hne : x ≠ []) :
    (x ++ y).dropWhile p = x ++ y := by
  cases x with
  | nil => exact absurd rfl hne
  | cons c cs =>
    have hc : p c = false := dropWhile_head_not p (c :: cs) c cs hx
    rw [List.cons_append, List.dropWhile_cons_of_neg (by simp [hc])]

/-- A both-ends strip decomposes into its two one-sided conditions. -/
theorem stripL_eq_self_iff (l : List Char) :
    stripL l = l ↔
      l.dropWhile Char.isWhitespace = l ∧
        l.reverse.dropWhile Char.isWhitespace = l.reverse := by
  constructor
  · intro h
    have hA : lstripL l <:+ l := List.dropWhile_suffix _
    have hB : (lstripL l).reverse.dropWhile Char.isWhitespace <:+ (lstripL l).reverse :=
      List.dropWhile_suffix _
    have hlB : ((lstripL l).reverse.dropWhile Char.isWhitespace).length = l.length := by
      have := congrArg List.length h
      simpa [stripL] using this
    have hlA : (lstripL l).length = l.length := by
      refine le_antisymm hA.sublist.length_le ?_
      calc l.length = ((lstripL l).reverse.dropWhile Char.isWhitespace).length := hlB.symm
        _ ≤ (lstripL l).reverse.length := hB.sublist.length_le
        _ = (lstripL l).length := List.length_reverse _
    have eA : lstripL l = l := hA.sublist.length_eq.mp hlA
    have eB : (lstripL l).reverse.dropWhile Char.isWhitespace = (lstripL l).reverse :=
      hB.sublist.length_eq.mp (by rw [hlB, eA, List.length_reverse])
    rw [eA] at eB
    exact ⟨eA, eB⟩
  · rintro ⟨h1, h2⟩
    unfold stripL lstripL
    rw [h1, h2, List.reverse_reverse]

theorem stripL_idem (l : List Char) : stripL (stripL l) = stripL l := by
  rw [stripL_eq_self_iff]
  refine ⟨?_, ?_⟩
  · rcases hs : stripL l with _ | ⟨c, cs⟩
    · simp
    · have hsuf : (stripL l).reverse <:+ (lstripL l).reverse := by
        unfold stripL
        rw [List.reverse_reverse]
        exact List.dropWhile_suffix _
      obtain ⟨u, hu⟩ := hsuf
      have h0 : stripL l ++ u.reverse = lstripL l := by
        have := congrArg List.reverse hu
        simpa [List.reverse_append] using this
      have hrev : lstripL l = stripL l ++ u.reverse := h0.symm
      rw [hs] at hrev
      have hc : Char.isWhitespace c = false :=
        dropWhile_head_not Char.isWhitespace l c (cs ++ u.reverse) hrev
      rw [List.dropWhile_cons_of_neg (by simp [hc])]
  · unfold stripL
    rw [List.reverse_reverse]
    exact List.dropWhile_idempotent _ _

theorem pyStrip_idem (s : String) : pyStrip (pyStrip s) = pyStrip s :=
  congrArg String.mk (stripL_idem s.data)

theorem stripL_data_eq_self {t : String} (h : pyStrip t = t) :
    stripL t.data = t.data := by
  cases t with
  | mk l => exact congrArg String.data h

theorem data_ne_nil {t : String} (h : t ≠ "") : t.data ≠ [] := by
  cases t with
  | mk l =>
    intro hl
    have hl2 : l = [] := hl
    subst hl2
    exact h rfl

theorem stripL_cons_space (x : List Char) : stripL (' ' :: x) = stripL x := by
  unfold stripL lstripL
  rw [List.dropWhile_cons_of_pos (by decide)]

theorem splitCommaL_no_comma (x : List Char) (hx : ',' ∉ x) :
    splitCommaL x = [x] := by
  induction x with
  | nil => rfl
  | cons c cs ih =>
    have hc : ¬c = ',' := fun h => hx (h ▸ List.mem_cons_self c cs)
    have ihc := ih (fun h => hx (List.mem_cons_of_mem c h))
    simp only [splitCommaL, if_neg hc, ihc]

theorem splitCommaL_append (x rest : List Char) (hx : ',' ∉ x) :
    splitCommaL (x ++ ',' :: rest) = x :: splitCommaL rest := by
  induction x with
  | nil => simp [splitCommaL]
  | cons c cs ih =>
    have hc : ¬c = ',' := fun h => hx (h ▸ List.mem_cons_self c cs)
    have ihc := ih (fun h => hx (List.mem_cons_of_mem c h))
    simp only [List.cons_append, splitCommaL, if_neg hc, List.append_eq, ihc]

theorem splitCommaL_joinCommaSpaceL (ds : List (List Char)) :
    ∀ d, ',' ∉ d → (∀ x ∈ ds, ',' ∉ x) →
      splitCommaL (joinCommaSpaceL (d :: ds)) =
        d :: ds.map (fun x => ' ' :: x) := by
  induction ds with
  | nil =>
    intro d hd _
    simp only [joinCommaSpaceL, List.map_nil]
    exact splitCommaL_no_comma d hd
  | cons e es ih =>
    intro d hd hds
    have ihe := ih e (hds e (List.mem_cons_self e es))
      (fun x hx => hds x (List.mem_cons_of_mem e hx))
    simp only [joinCommaSpaceL] at ihe ⊢
    rw [splitCommaL_append d _ hd]
    simp only [splitCommaL, if_neg (by decide : ¬(' ' = ',')), ihe, List.map_cons]

theorem joinCommaSpaceL_ne_nil (d : List Char) (ds : List (List Char))
    (hd : d ≠ []) : joinCommaSpaceL (d :: ds) ≠ [] := by
  cases ds with
  | nil => simpa [joinCommaSpaceL] using hd
  | cons e es => simp [joinCommaSpaceL, hd]

theorem dropWhile_joinCommaSpaceL (d : List Char) (ds : List (List Char))
    (hd : stripL d = d) (hd0 : d ≠ []) :
    (joinCommaSpaceL (d :: ds)).dropWhile Char.isWhitespace =
      joinCommaSpaceL (d :: ds) := by
  have h1 : d.dropWhile Char.isWhitespace = d := ((stripL_eq_self_iff d).mp hd).1
  cases ds with
  | nil => simpa [joinCommaSpaceL] using h1
  | cons e es =>
    simp only [joinCommaSpaceL]
    exact dropWhile_eq_self_of_append _ _ _ h1 hd0

theorem reverse_dropWhile_joinCommaSpaceL (ds : List (List Char)) :
    ∀ d, (∀ x ∈ d :: ds, stripL x = x ∧ x ≠ []) →
      (joinCommaSpaceL (d :: ds)).reverse.dropWhile Char.isWhitespace =
        (joinCommaSpaceL (d :: ds)).reverse := by
  induction ds with
  | nil =>
    intro d hall
    simpa [joinCommaSpaceL] using
      ((stripL_eq_self_iff d).mp (hall d (by simp)).1).2
  | cons e es ih =>
    intro d hall
    have ihe := ih e (fun x hx => hall x (List.mem_cons_of_mem d hx))
    have hne : joinCommaSpaceL (e :: es) ≠ [] :=
      joinCommaSpaceL_ne_nil e es (hall e (by simp)).2
    simp only [joinCommaSpaceL, List.reverse_append, List.reverse_cons,
      List.append_assoc, List.nil_append, List.cons_append]
    refine dropWhile_eq_self_of_append _ _ _ ihe ?_
    simpa using hne

theorem stripL_joinCommaSpaceL (d : List Char) (ds : List (List Char))
    (hall : ∀ x ∈ d :: ds, stripL x = x ∧ x ≠ []) :
    stripL (joinCommaSpaceL (d :: ds)) = joinCommaSpaceL (d :: ds) :=
  (stripL_eq_self_iff _).mpr
    ⟨dropWhile_joinCommaSpaceL d ds (hall d (by simp)).1 (hall d (by simp)).2,
     reverse_dropWhile_joinCommaSpaceL ds d hall⟩

/-- The join-then-split round trip at the cell level: re-tokenizing the
`", "`-joined list of well-formed, comma-free tokens yields the list back. -/
theorem listTokens_pyJoinComma (L : List String)
    (hwf : ∀ t ∈ L, pyStrip t = t ∧ t ≠ "" ∧ ',' ∉ t.data) :
    listTokens (some (pyJoinComma L)) = L := by
  cases L with
  | nil => rfl
  | cons t ts =>
    have hallL : ∀ x ∈ t.data :: ts.map String.data, stripL x = x ∧ x ≠ [] := by
      intro x hx
      rw [List.mem_cons] at hx
      rcases hx with rfl | hx
      · exact ⟨stripL_data_eq_self (hwf t (by simp)).1,
          data_ne_nil (hwf t (by simp)).2.1⟩
      · rw [List.mem_map] at hx
        obtain ⟨u, hu, rfl⟩ := hx
        have := hwf u (List.mem_cons_of_mem t hu)
        exact ⟨stripL_data_eq_self this.1, data_ne_nil this.2.1⟩
    have hJ : joinCommaSpaceL (t.data :: ts.map String.data) ≠ [] :=
      joinCommaSpaceL_ne_nil _ _ (data_ne_nil (hwf t (by simp)).2.1)
    have hstrip : stripL (joinCommaSpaceL (t.data :: ts.map String.data)) =
        joinCommaSpaceL (t.data :: ts.map String.data) :=
      stripL_joinCommaSpaceL _ _ hallL
    have hPy : pyStrip (pyJoinComma (t :: ts)) = pyJoinComma (t :: ts) := by
      unfold pyJoinComma
      rw [List.map_cons]
      exact congrArg String.mk hstrip
    have hPyNe : pyJoinComma (t :: ts) ≠ "" := by
      unfold pyJoinComma
      rw [List.map_cons]
      intro h
      exact hJ (congrArg String.data h)
    rw [listTokens]
    rw [if_neg (by rw [hPy]; exact hPyNe)]
    have hdata : (pyStrip (pyJoinComma (t :: ts))).data =
        joinCommaSpaceL (t.data :: ts.map String.data) := by
      rw [hPy]; unfold pyJoinComma; rw [List.map_cons]
    rw [hdata]
    rw [splitCommaL_joinCommaSpaceL (ts.map String.data) t.data
      (hwf t (by simp)).2.2 (by
        intro x hx
        rw [List.mem_map] at hx
        obtain ⟨u, hu, rfl⟩ := hx
        exact (hwf u (List.mem_cons_of_mem t hu)).2.2)]
    rw [List.map_cons, List.map_map]
    have hhd : (⟨stripL t.data⟩ : String) = t := by
      rw [stripL_data_eq_self (hwf t (by simp)).1]
    have htl : (ts.map String.data).map
        ((fun p => (⟨stripL p⟩ : String)) ∘ (fun x => ' ' :: x)) = ts := by
      rw [List.map_map]
      refine Eq.trans (List.map_congr_left ?_) (List.map_id ts)
      intro u hu
      show (⟨stripL (' ' :: u.data)⟩ : String) = u
      rw [stripL_cons_space, stripL_data_eq_self
        (hwf u (List.mem_cons_of_mem t hu)).1]
    rw [hhd, htl]
    rw [List.filter_eq_self]
    intro a ha
    rw [List.mem_cons] at ha
    rcases ha with rfl | ha
    · simp [(hwf a (by simp)).2.1]
    · simp [(hwf a (List.mem_cons_of_mem t ha)).2.1]

/-! ### Well-formedness of stored tokens and keys -/

theorem listTokens_of_blank {cell : Option String} (h : cellBlank cell = true) :
    listTokens cell = [] := by
  cases cell with
  | none => rfl
  | some s =>
    have hv : pyStrip s = "" := by simpa [cellBlank] using h
    simp [listTokens, hv]

theorem scalarToken_of_blank {cell : Option String} (h : cellBlank cell = true) :
    scalarToken cell = [] := by
  cases cell with
  | none => rfl
  | some s =>
    have hv : pyStrip s = "" := by simpa [cellBlank] using h
    simp [scalarToken, hv]

theorem mem_listTokens_wf {cell : Option String} {t : String}
    (h : t ∈ listTokens cell) : pyStrip t = t ∧ t ≠ "" := by
  cases cell with
  | none => cases h
  | some s =>
    rw [listTokens] at h
    by_cases hv : pyStrip s = ""
    · rw [if_pos hv] at h; cases h
    · rw [if_neg hv, List.mem_filter] at h
      obtain ⟨hmem, hne⟩ := h
      rw [List.mem_map] at hmem
      obtain ⟨p, hp, rfl⟩ := hmem
      exact ⟨congrArg String.mk (stripL_idem p), by simpa using hne⟩

theorem mem_scalarToken_wf {cell : Option String} {t : String}
    (h : t ∈ scalarToken cell) : pyStrip t = t ∧ t ≠ "" := by
  cases cell with
  | none => cases h
  | some s =>
    rw [scalarToken] at h
    by_cases hv : pyStrip s = ""
    · rw [if_pos hv] at h; cases h
    · rw [if_neg hv, List.mem_singleton] at h
      subst h
      exact ⟨pyStrip_idem s, hv⟩

theorem effCarrier_none {r : Row} (h : r.carrier = none) :
    effCarrier r = "Unnamed Carrier" := by
  unfold effCarrier
  rw [h]

theorem effCarrier_some {r : Row} {s : String} (h : r.carrier = some s) :
    effCarrier r = if pyStrip s = "" then "Unnamed Carrier" else pyStrip s := by
  unfold effCarrier
  rw [h]

theorem effCarrier_wf (r : Row) :
    pyStrip (effCarrier r) = effCarrier r ∧ effCarrier r ≠ "" := by
  rcases hc : r.carrier with _ | s
  · rw [effCarrier_none hc]
    exact ⟨by decide, by decide⟩
  · rw [effCarrier_some hc]
    by_cases h : pyStrip s = ""
    · rw [if_pos h]
      exact ⟨by decide, by decide⟩
    · rw [if_neg h]
      exact ⟨pyStrip_idem s, h⟩

theorem mem_keys_wf {rows : List Row} {c : String}
    (h : c ∈ (processTable rows).keys) : pyStrip c = c ∧ c ≠ "" := by
  rw [mem_keys_processTable] at h
  obtain ⟨r, -, -, rfl⟩ := h
  exact effCarrier_wf r

/-- Every token stored in any field of any carrier entry of the index is
already stripped and non-empty (the data-model invariant of §3). -/
theorem mem_entry_wf {rows : List Row} {c t : String}
    (h : t ∈ allEntryTokens ((processTable rows).data c)) :
    pyStrip t = t ∧ t ≠ "" := by
  unfold allEntryTokens at h
  simp only [Finset.mem_union] at h
  rcases h with ((h | h) | h) | h
  · rw [mem_brokersTo_data] at h
    obtain ⟨r, -, -, -, ht⟩ := h
    exact mem_listTokens_wf ht
  · rw [mem_brokersThrough_data] at h
    obtain ⟨r, -, -, -, ht⟩ := h
    exact mem_listTokens_wf ht
  · rw [mem_brokerEntityOf_data] at h
    obtain ⟨r, -, -, -, ht⟩ := h
    exact mem_scalarToken_wf ht
  · rw [mem_relationshipOwner_data] at h
    obtain ⟨r, -, -, -, ht⟩ := h
    exact mem_scalarToken_wf ht

/-! ### Order-independence of the aggregation -/

theorem augmentEntry_comm (e : Entry) (a b : Row) :
    augmentEntry (augmentEntry e a) b = augmentEntry (augmentEntry e b) a := by
  unfold augmentEntry
  simp [Entry.mk.injEq, Finset.union_right_comm, Finset.union_comm,
    Finset.union_left_comm]

theorem processRow_comm (st : AggState) (a b : Row) :
    processRow (processRow st a) b = processRow (processRow st b) a := by
  rcases ha : rowSkipped a with _ | _
  · rcases hb : rowSkipped b with _ | _
    · refine AggState.ext ?_ ?_ ?_ ?_ ?_ ?_
      · rw [processRow_keys _ _ hb, processRow_keys _ _ ha,
          processRow_keys _ _ ha, processRow_keys _ _ hb]
        exact Finset.Insert.comm _ _ _
      · funext c
        rw [processRow_data _ _ hb, processRow_data _ _ ha,
          processRow_data _ _ ha, processRow_data _ _ hb]
        by_cases hca : c = effCarrier a <;> by_cases hcb : c = effCarrier b
        · have hab : effCarrier a = effCarrier b := hca.symm.trans hcb
          simp [hca, hcb, hab, augmentEntry_comm]
        · have hab : ¬effCarrier a = effCarrier b := fun h => hcb (hca.trans h)
          simp [hca, hcb, hab]
        · have hba : ¬effCarrier b = effCarrier a := fun h => hca (hcb.trans h)
          simp [hca, hcb, hba]
        · simp [hca, hcb]
      · simp [processRow, ha, hb, Finset.union_right_comm, Finset.union_comm,
          Finset.union_left_comm]
      · simp [processRow, ha, hb, Finset.union_right_comm, Finset.union_comm,
          Finset.union_left_comm]
      · simp [processRow, ha, hb, Finset.union_right_comm, Finset.union_comm,
          Finset.union_left_comm]
      · simp [processRow, ha, hb, Finset.union_right_comm, Finset.union_comm,
          Finset.union_left_comm]
    · rw [processRow_of_skipped _ b hb, processRow_of_skipped st b hb]
  · rw [processRow_of_skipped st a ha, processRow_of_skipped _ a ha]

theorem foldl_eq_of_comm {α β : Type} (f : β → α → β)
    (comm : ∀ b x y, f (f b x) y = f (f b y) x) {l₁ l₂ : List α}
    (p : l₁.Perm l₂) : ∀ b, l₁.foldl f b = l₂.foldl f b := by
  induction p with
  | nil => intro b; rfl
  | cons x p ih =>
    intro b
    rw [List.foldl_cons, List.foldl_cons]
    exact ih (f b x)
  | swap x y l =>
    intro b
    rw [List.foldl_cons, List.foldl_cons, List.foldl_cons, List.foldl_cons, comm]
  | trans p q ih1 ih2 =>
    intro b
    rw [ih1 b, ih2 b]

/-- Folding the row loop over two row lists that are permutations of each
other gives the same state. -/
theorem processTable_perm {rows1 rows2 : List Row} (p : rows1.Perm rows2) :
    processTable rows1 = processTable rows2 :=
  foldl_eq_of_comm processRow processRow_comm p initState

/-! ### Further helper lemmas -/

theorem rowSkipped_eq_true_iff (r : Row) :
    rowSkipped r = true ↔
      effCarrier r = "Unnamed Carrier" ∧ cellBlank r.brokersTo = true ∧
        cellBlank r.brokersThrough = true ∧ cellBlank r.brokerEntityOf = true ∧
        cellBlank r.relationshipOwner = true := by
  unfold rowSkipped
  simp [Bool.and_eq_true, decide_eq_true_eq, and_assoc]

theorem effCarrier_of_blank {r : Row} (hc : cellBlank r.carrier = true) :
    effCarrier r = "Unnamed Carrier" := by
  rcases hcc : r.carrier with _ | s
  · exact effCarrier_none hcc
  · rw [hcc] at hc
    have hs : pyStrip s = "" := by simpa [cellBlank] using hc
    rw [effCarrier_some hcc, if_pos hs]

/-- Membership in a carrier's `brokers_to` set, with the skip condition
dropped: a skipped row has only blank cells, hence no tokens. -/
theorem mem_brokersTo_data_iff (rows : List Row) (c t : String) :
    t ∈ ((processTable rows).data c).brokersTo ↔
      ∃ r ∈ rows, effCarrier r = c ∧ t ∈ listTokens r.brokersTo := by
  rw [mem_brokersTo_data]
  constructor
  · rintro ⟨r, hr, -, hc, ht⟩
    exact ⟨r, hr, hc, ht⟩
  · rintro ⟨r, hr, hc, ht⟩
    refine ⟨r, hr, ?_, hc, ht⟩
    rcases hsk : rowSkipped r with _ | _
    · rfl
    · rw [listTokens_of_blank ((rowSkipped_eq_true_iff r).mp hsk).2.1] at ht
      cases ht

theorem mem_brokersThrough_data_iff (rows : List Row) (c t : String) :
    t ∈ ((processTable rows).data c).brokersThrough ↔
      ∃ r ∈ rows, effCarrier r = c ∧ t ∈ listTokens r.brokersThrough := by
  rw [mem_brokersThrough_data]
  constructor
  · rintro ⟨r, hr, -, hc, ht⟩
    exact ⟨r, hr, hc, ht⟩
  · rintro ⟨r, hr, hc, ht⟩
    refine ⟨r, hr, ?_, hc, ht⟩
    rcases hsk : rowSkipped r with _ | _
    · rfl
    · rw [listTokens_of_blank ((rowSkipped_eq_true_iff r).mp hsk).2.2.1] at ht
      cases ht

theorem sortedList_length (s : Finset String) : (sortedList s).length = s.card := by
  rcases s with ⟨val, h⟩
  induction val using Quot.ind with
  | _ l => exact (List.perm_insertionSort strLe l).length_eq

theorem sortedList_eq_nil_iff (s : Finset String) : sortedList s = [] ↔ s = ∅ := by
  constructor
  · intro h
    rw [Finset.eq_empty_iff_forall_not_mem]
    intro x hx
    rw [← mem_sortedList (s := s), h] at hx
    cases hx
  · rintro rfl
    rfl

/-- Joining a non-empty list of stripped, non-empty tokens gives a string
that is itself stripped and non-empty. -/
theorem pyJoinComma_wf (L : List String) (hL : L ≠ [])
    (hwf : ∀ t ∈ L, pyStrip t = t ∧ t ≠ "") :
    pyStrip (pyJoinComma L) = pyJoinComma L ∧ pyJoinComma L ≠ "" := by
  cases L with
  | nil => exact absurd rfl hL
  | cons t ts =>
    have hallL : ∀ x ∈ t.data :: ts.map String.data, stripL x = x ∧ x ≠ [] := by
      intro x hx
      rw [List.mem_cons] at hx
      rcases hx with rfl | hx
      · exact ⟨stripL_data_eq_self (hwf t (by simp)).1,
          data_ne_nil (hwf t (by simp)).2⟩
      · rw [List.mem_map] at hx
        obtain ⟨u, hu, rfl⟩ := hx
        have := hwf u (List.mem_cons_of_mem t hu)
        exact ⟨stripL_data_eq_self this.1, data_ne_nil this.2⟩
    have hJ : joinCommaSpaceL (t.data :: ts.map String.data) ≠ [] :=
      joinCommaSpaceL_ne_nil _ _ (data_ne_nil (hwf t (by simp)).2)
    constructor
    · unfold pyJoinComma
      rw [List.map_cons]
      exact congrArg String.mk (stripL_joinCommaSpaceL _ _ hallL)
    · unfold pyJoinComma
      rw [List.map_cons]
      intro h
      exact hJ (congrArg String.data h)

/-- The scalar-cell round trip: re-reading the `", "`-join of at most one
well-formed token gives the token list back (scalar cells are not split). -/
theorem scalarToken_pyJoinComma_small (L : List String)
    (hwf : ∀ t ∈ L, pyStrip t = t ∧ t ≠ "") (hlen : L.length ≤ 1) :
    scalarToken (some (pyJoinComma L)) = L := by
  cases L with
  | nil => rfl
  | cons t ts =>
    cases ts with
    | cons u us =>
      exfalso
      simp only [List.length_cons] at hlen
      omega
    | nil =>
      have h1 := hwf t (by simp)
      have hjoin : pyJoinComma [t] = t := rfl
      rw [hjoin]
      simp [scalarToken, h1.1, h1.2]

/-- Core of the export round trip: re-indexing the exported CSV row of a
well-formed entry (stripped non-empty comma-free tokens, at most one token
in each of the two scalar fields) restores the entry at its carrier key. -/
theorem roundtrip_entry (e : Entry) (c : String)
    (hc : pyStrip c = c) (hc0 : c ≠ "")
    (hwf : ∀ t ∈ allEntryTokens e, pyStrip t = t ∧ t ≠ "" ∧ ',' ∉ t.data)
    (hE : e.brokerEntityOf.card ≤ 1) (hO : e.relationshipOwner.card ≤ 1) :
    entryOut ((processTable [downloadRow c e]).data c) = entryOut e := by
  have hwfBT : ∀ t ∈ sortedList e.brokersTo,
      pyStrip t = t ∧ t ≠ "" ∧ ',' ∉ t.data := by
    intro t ht
    refine hwf t ?_
    unfold allEntryTokens
    simp only [Finset.mem_union]
    exact Or.inl (Or.inl (Or.inl (mem_sortedList.mp ht)))
  have hwfBTh : ∀ t ∈ sortedList e.brokersThrough,
      pyStrip t = t ∧ t ≠ "" ∧ ',' ∉ t.data := by
    intro t ht
    refine hwf t ?_
    unfold allEntryTokens
    simp only [Finset.mem_union]
    exact Or.inl (Or.inl (Or.inr (mem_sortedList.mp ht)))
  have hwfBE : ∀ t ∈ sortedList e.brokerEntityOf,
      pyStrip t = t ∧ t ≠ "" ∧ ',' ∉ t.data := by
    intro t ht
    refine hwf t ?_
    unfold allEntryTokens
    simp only [Finset.mem_union]
    exact Or.inl (Or.inr (mem_sortedList.mp ht))
  have hwfRO : ∀ t ∈ sortedList e.relationshipOwner,
      pyStrip t = t ∧ t ≠ "" ∧ ',' ∉ t.data := by
    intro t ht
    refine hwf t ?_
    unfold allEntryTokens
    simp only [Finset.mem_union]
    exact Or.inr (mem_sortedList.mp ht)
  have hLBT : listTokens (some (pyJoinComma (sortedList e.brokersTo))) =
      sortedList e.brokersTo :=
    listTokens_pyJoinComma _ hwfBT
  have hLBTh : listTokens (some (pyJoinComma (sortedList e.brokersThrough))) =
      sortedList e.brokersThrough :=
    listTokens_pyJoinComma _ hwfBTh
  have hSBE : scalarToken (some (pyJoinComma (sortedList e.brokerEntityOf))) =
      sortedList e.brokerEntityOf :=
    scalarToken_pyJoinComma_small _ (fun t ht => ⟨(hwfBE t ht).1, (hwfBE t ht).2.1⟩)
      (by rw [sortedList_length]; exact hE)
  have hSRO : scalarToken (some (pyJoinComma (sortedList e.relationshipOwner))) =
      sortedList e.relationshipOwner :=
    scalarToken_pyJoinComma_small _ (fun t ht => ⟨(hwfRO t ht).1, (hwfRO t ht).2.1⟩)
      (by rw [sortedList_length]; exact hO)
  have heff : effCarrier (downloadRow c e) = c := by
    rw [effCarrier_some (rfl : (downloadRow c e).carrier = some c),
      if_neg (by rw [hc]; exact hc0), hc]
  rcases hsk : rowSkipped (downloadRow c e) with _ | _
  · have haug : augmentEntry emptyEntry (downloadRow c e) = e := by
      refine Entry.ext ?_ ?_ ?_ ?_
      · show ∅ ∪ (listTokens (some (pyJoinComma (sortedList e.brokersTo)))).toFinset =
          e.brokersTo
        rw [Finset.empty_union, hLBT, sortedList_toFinset]
      · show ∅ ∪ (listTokens (some (pyJoinComma (sortedList e.brokersThrough)))).toFinset =
          e.brokersThrough
        rw [Finset.empty_union, hLBTh, sortedList_toFinset]
      · show ∅ ∪ (scalarToken (some (pyJoinComma (sortedList e.brokerEntityOf)))).toFinset =
          e.brokerEntityOf
        rw [Finset.empty_union, hSBE, sortedList_toFinset]
      · show ∅ ∪ (scalarToken (some (pyJoinComma (sortedList e.relationshipOwner)))).toFinset =
          e.relationshipOwner
        rw [Finset.empty_union, hSRO, sortedList_toFinset]
    have hdc : (processTable [downloadRow c e]).data c = e := by
      show (processRow initState (downloadRow c e)).data c = e
      rw [processRow_data _ _ hsk c, if_pos heff.symm, initState_data]
      exact haug
    rw [hdc]
  · have hparts := (rowSkipped_eq_true_iff _).mp hsk
    have empty_of_blank : ∀ (L : List String),
        (∀ t ∈ L, pyStrip t = t ∧ t ≠ "" ∧ ',' ∉ t.data) →
        pyStrip (pyJoinComma L) = "" → L = [] := by
      intro L hLwf hblank
      by_contra hne
      have hj := pyJoinComma_wf L hne (fun t ht => ⟨(hLwf t ht).1, (hLwf t ht).2.1⟩)
      exact hj.2 (hj.1.symm.trans hblank)
    have hBT : sortedList e.brokersTo = [] := by
      refine empty_of_blank _ hwfBT ?_
      have hblank := hparts.2.1
      simpa [downloadRow, cellBlank] using hblank
    have hBTh : sortedList e.brokersThrough = [] := by
      refine empty_of_blank _ hwfBTh ?_
      have hblank := hparts.2.2.1
      simpa [downloadRow, cellBlank] using hblank
    have hBE : sortedList e.brokerEntityOf = [] := by
      refine empty_of_blank _ hwfBE ?_
      have hblank := hparts.2.2.2.1
      simpa [downloadRow, cellBlank] using hblank
    have hRO : sortedList e.relationshipOwner = [] := by
      refine empty_of_blank _ hwfRO ?_
      have hblank := hparts.2.2.2.2
      simpa [downloadRow, cellBlank] using hblank
    have he : e = emptyEntry := by
      refine Entry.ext ?_ ?_ ?_ ?_
      · exact (sortedList_eq_nil_iff _).mp hBT
      · exact (sortedList_eq_nil_iff _).mp hBTh
      · exact (sortedList_eq_nil_iff _).mp hBE
      · exact (sortedList_eq_nil_iff _).mp hRO
    have hstate : processTable [downloadRow c e] = initState :=
      processRow_of_skipped _ _ hsk
    rw [hstate, initState_data, he]

/-! ### The claims -/

/-- C1: on the two-row Acme table, `build_index`'s aggregation produces
exactly one entry keyed `"Acme"` with sorted sequences
`brokers_to = ["X","Y","Z"]`, `brokers_through = ["W"]`,
`broker_entity_of = ["EntA"]`, `relationship_owner = ["Bob"]`, and the
global `brokers_to` set is `{"X","Y","Z"}`. -/
theorem claim_C1 :
    (processTable [⟨some "Acme", some "X, Y", some "", some "EntA", some "Bob"⟩,
        ⟨some "Acme", some "Y, Z", some "W", some "", some ""⟩]).keys = {"Acme"} ∧
    entryOut ((processTable
        [⟨some "Acme", some "X, Y", some "", some "EntA", some "Bob"⟩,
         ⟨some "Acme", some "Y, Z", some "W", some "", some ""⟩]).data "Acme") =
      ⟨["X", "Y", "Z"], ["W"], ["EntA"], ["Bob"]⟩ ∧
    (processTable [⟨some "Acme", some "X, Y", some "", some "EntA", some "Bob"⟩,
        ⟨some "Acme", some "Y, Z", some "W", some "", some ""⟩]).allBrokersTo =
      {"X", "Y", "Z"} := by
  decide

/-- C2: for every table and carrier, each delimited cell is split on
commas, tokens are stripped, empty tokens discarded, duplicates collapse,
and the final per-carrier sequence is sorted ascending and duplicate-free;
its members are exactly the cleaned tokens of the carrier's rows.  In
particular cells `"A, B"` and `"B, C"` in two rows for the same carrier
yield `["A", "B", "C"]`. -/
theorem claim_C2 :
    (∀ (rows : List Row) (c : String),
      ((entryOut ((processTable rows).data c)).brokersTo.Sorted strLe ∧
        (entryOut ((processTable rows).data c)).brokersTo.Nodup ∧
        ∀ t, t ∈ (entryOut ((processTable rows).data c)).brokersTo ↔
          ∃ r ∈ rows, effCarrier r = c ∧ t ∈ listTokens r.brokersTo) ∧
      ((entryOut ((processTable rows).data c)).brokersThrough.Sorted strLe ∧
        (entryOut ((processTable rows).data c)).brokersThrough.Nodup ∧
        ∀ t, t ∈ (entryOut ((processTable rows).data c)).brokersThrough ↔
          ∃ r ∈ rows, effCarrier r = c ∧ t ∈ listTokens r.brokersThrough)) ∧
    (entryOut ((processTable [⟨some "Acme", some "A, B", none, none, none⟩,
        ⟨some "Acme", some "B, C", none, none, none⟩]).data "Acme")).brokersTo =
      ["A", "B", "C"] := by
  constructor
  · intro rows c
    refine ⟨⟨sortedList_sorted _, sortedList_nodup _, ?_⟩,
      ⟨sortedList_sorted _, sortedList_nodup _, ?_⟩⟩
    · intro t
      show t ∈ sortedList ((processTable rows).data c).brokersTo ↔ _
      rw [mem_sortedList, mem_brokersTo_data_iff]
    · intro t
      show t ∈ sortedList ((processTable rows).data c).brokersThrough ↔ _
      rw [mem_sortedList, mem_brokersThrough_data_iff]
  · decide

/-- C3: a row whose carrier cell is missing or whitespace-only and whose
four relationship cells are all blank is discarded entirely — the index of
a table containing it equals the index of the table without it. -/
theorem claim_C3 (pre post : List Row) (r : Row)
    (hc : cellBlank r.carrier = true) (h1 : cellBlank r.brokersTo = true)
    (h2 : cellBlank r.brokersThrough = true)
    (h3 : cellBlank r.brokerEntityOf = true)
    (h4 : cellBlank r.relationshipOwner = true) :
    processTable (pre ++ r :: post) = processTable (pre ++ post) := by
  have hskip : rowSkipped r = true :=
    (rowSkipped_eq_true_iff r).mpr ⟨effCarrier_of_blank hc, h1, h2, h3, h4⟩
  unfold processTable
  rw [List.foldl_append, List.foldl_append, List.foldl_cons,
    processRow_of_skipped _ _ hskip]

/-- Witness for C3: a fully blank row (missing carrier, one whitespace-only
cell) contributes nothing. -/
theorem claim_C3_witness :
    cellBlank (Row.mk none (some " ") none none none).carrier = true ∧
    processTable [⟨none, some " ", none, none, none⟩] = processTable [] := by
  refine ⟨by decide, ?_⟩
  have h := claim_C3 [] [] ⟨none, some " ", none, none, none⟩ (by decide)
    (by decide) (by decide) (by decide) (by decide)
  simpa using h

/-- C4: a row with a blank carrier but at least one non-blank relationship
cell produces the `"Unnamed Carrier"` entry, which contains all of the
row's cleaned values. -/
theorem claim_C4 (rows : List Row) (r : Row) (hmem : r ∈ rows)
    (hc : cellBlank r.carrier = true)
    (hnb : ¬(cellBlank r.brokersTo = true ∧ cellBlank r.brokersThrough = true ∧
      cellBlank r.brokerEntityOf = true ∧ cellBlank r.relationshipOwner = true)) :
    "Unnamed Carrier" ∈ (processTable rows).keys ∧
      (∀ t ∈ listTokens r.brokersTo,
        t ∈ ((processTable rows).data "Unnamed Carrier").brokersTo) ∧
      (∀ t ∈ listTokens r.brokersThrough,
        t ∈ ((processTable rows).data "Unnamed Carrier").brokersThrough) ∧
      (∀ t ∈ scalarToken r.brokerEntityOf,
        t ∈ ((processTable rows).data "Unnamed Carrier").brokerEntityOf) ∧
      (∀ t ∈ scalarToken r.relationshipOwner,
        t ∈ ((processTable rows).data "Unnamed Carrier").relationshipOwner) := by
  have heff := effCarrier_of_blank hc
  have hskip : rowSkipped r = false := by
    rcases hsk : rowSkipped r with _ | _
    · rfl
    · exact absurd ((rowSkipped_eq_true_iff r).mp hsk).2 hnb
  refine ⟨?_, ?_, ?_, ?_, ?_⟩
  · rw [mem_keys_processTable]
    exact ⟨r, hmem, hskip, heff⟩
  · intro t ht
    rw [mem_brokersTo_data]
    exact ⟨r, hmem, hskip, heff, ht⟩
  · intro t ht
    rw [mem_brokersThrough_data]
    exact ⟨r, hmem, hskip, heff, ht⟩
  · intro t ht
    rw [mem_brokerEntityOf_data]
    exact ⟨r, hmem, hskip, heff, ht⟩
  · intro t ht
    rw [mem_relationshipOwner_data]
    exact ⟨r, hmem, hskip, heff, ht⟩

/-- Witness for C4: a row with whitespace-only carrier and owner `"Bob"`
lands under `"Unnamed Carrier"`. -/
theorem claim_C4_witness :
    "Unnamed Carrier" ∈
      (processTable [⟨some "  ", none, none, none, some "Bob"⟩]).keys ∧
    "Bob" ∈ ((processTable [⟨some "  ", none, none, none, some "Bob"⟩]).data
      "Unnamed Carrier").relationshipOwner := by
  have h := claim_C4 [⟨some "  ", none, none, none, some "Bob"⟩]
    ⟨some "  ", none, none, none, some "Bob"⟩ (by decide) (by decide) (by decide)
  exact ⟨h.1, h.2.2.2.2 "Bob" (by decide)⟩

/-- C5: a table lacking required columns fails with a `SchemaError` before
any row is processed (the same error for every row list), and the reported
list contains exactly the missing required columns. -/
theorem claim_C5 (t : RawTable) (h : missingColumns t.headers ≠ []) :
    (∀ rs : List Row,
      build_index ⟨t.headers, rs⟩ =
        .error (.schemaError (missingColumns t.headers))) ∧
    (∀ col, col ∈ missingColumns t.headers ↔
      col ∈ expectedColumns ∧ col ∉ t.headers.map pyStrip) := by
  constructor
  · intro rs
    show (if missingColumns t.headers = [] then _ else _) = _
    rw [if_neg h]
  · intro col
    unfold missingColumns
    rw [List.mem_filter]
    simp

/-- Witness for C5: a table missing only `broker entity of` reports exactly
that column. -/
theorem claim_C5_witness :
    build_index ⟨["Carrier", "Brokers to", "Brokers through",
        "relationship owner"], []⟩ =
      .error (.schemaError ["broker entity of"]) := by
  have h := claim_C5 ⟨["Carrier", "Brokers to", "Brokers through",
    "relationship owner"], []⟩ (by decide)
  exact h.1 []

/-- C6: when the reader cannot decode the raw bytes as the declared format,
`load_and_process_data` surfaces the decode failure reason as a
`ParseError` and returns no index. -/
theorem claim_C6 (readTable : List (Fin 256) → String → Except String RawTable)
    (fileBytes : List (Fin 256)) (fileType : String) (msg : String)
    (h : readTable fileBytes fileType = .error msg) :
    load_and_process_data readTable fileBytes fileType =
      .error (.parseError msg) := by
  unfold load_and_process_data
  rw [h]

/-- Witness for C6: a reader that rejects its input. -/
theorem claim_C6_witness :
    load_and_process_data (fun _ _ => .error "not parseable") [] "csv" =
      .error (.parseError "not parseable") :=
  claim_C6 (fun _ _ => .error "not parseable") [] "csv" "not parseable" rfl

/-- C7: permuting the input rows changes nothing — key set, every carrier's
four sorted sequences, and the four global sets are all invariant. -/
theorem claim_C7 (rows1 rows2 : List Row) (p : rows1.Perm rows2) :
    (processTable rows1).keys = (processTable rows2).keys ∧
    (∀ c, entryOut ((processTable rows1).data c) =
      entryOut ((processTable rows2).data c)) ∧
    (processTable rows1).allBrokersTo = (processTable rows2).allBrokersTo ∧
    (processTable rows1).allBrokersThrough =
      (processTable rows2).allBrokersThrough ∧
    (processTable rows1).allBrokerEntities =
      (processTable rows2).allBrokerEntities ∧
    (processTable rows1).allRelationshipOwners =
      (processTable rows2).allRelationshipOwners := by
  rw [processTable_perm p]
  exact ⟨rfl, fun c => rfl, rfl, rfl, rfl, rfl⟩

/-- Witness for C7: swapping two rows leaves the key set unchanged. -/
theorem claim_C7_witness :
    (processTable [⟨some "A", some "X", none, none, none⟩,
        ⟨some "B", some "Y", none, none, none⟩]).keys =
      (processTable [⟨some "B", some "Y", none, none, none⟩,
        ⟨some "A", some "X", none, none, none⟩]).keys :=
  (claim_C7 _ _ (List.Perm.swap _ _ _)).1

/-- C8 counterexample: an entry whose tokens are all comma-free but whose
`broker_entity_of` set has two members.  The export joins them into the
single cell `"E1, E2"`, and re-parsing reads that scalar cell unsplit, so
the round trip is not lossless. -/
theorem claim_C8_counterexample :
    (∀ t ∈ allEntryTokens ((processTable
        [⟨some "Acme", none, none, some "E1", none⟩,
         ⟨some "Acme", none, none, some "E2", none⟩]).data "Acme"),
      ',' ∉ t.data) ∧
    ¬(entryOut ((processTable [downloadRow "Acme"
        ((processTable [⟨some "Acme", none, none, some "E1", none⟩,
          ⟨some "Acme", none, none, some "E2", none⟩]).data "Acme")]).data
        "Acme") =
      entryOut ((processTable [⟨some "Acme", none, none, some "E1", none⟩,
        ⟨some "Acme", none, none, some "E2", none⟩]).data "Acme")) := by
  decide

/-- C8 (amended): the export/re-parse round trip reproduces a carrier's
four sorted sequences provided the stored tokens contain no commas AND the
two scalar fields (`broker_entity_of`, `relationship_owner`) each hold at
most one token — re-parsing does not split scalar cells, so multi-member
scalar sets do not survive the round trip. -/
theorem claim_C8_amended_thm (rows : List Row) (c : String)
    (hmem : c ∈ (processTable rows).keys)
    (hcomma : ∀ t ∈ allEntryTokens ((processTable rows).data c), ',' ∉ t.data)
    (hE : ((processTable rows).data c).brokerEntityOf.card ≤ 1)
    (hO : ((processTable rows).data c).relationshipOwner.card ≤ 1) :
    entryOut ((processTable
        [downloadRow c ((processTable rows).data c)]).data c) =
      entryOut ((processTable rows).data c) := by
  obtain ⟨hc, hc0⟩ := mem_keys_wf hmem
  refine roundtrip_entry _ c hc hc0 ?_ hE hO
  intro t ht
  obtain ⟨h1, h2⟩ := mem_entry_wf ht
  exact ⟨h1, h2, hcomma t ht⟩

/-- Witness for the amended C8: the Acme entry of C1 round-trips. -/
theorem claim_C8_witness :
    entryOut ((processTable [downloadRow "Acme"
        ((processTable [⟨some "Acme", some "X, Y", some "", some "EntA", some "Bob"⟩,
          ⟨some "Acme", some "Y, Z", some "W", some "", some ""⟩]).data
          "Acme")]).data "Acme") =
      entryOut ((processTable
        [⟨some "Acme", some "X, Y", some "", some "EntA", some "Bob"⟩,
         ⟨some "Acme", some "Y, Z", some "W", some "", some ""⟩]).data "Acme") :=
  claim_C8_amended_thm _ "Acme" (by decide) (by decide) (by decide) (by decide)

/-- C9: each of the four global sets is exactly the union over all carrier
entries of that entry's set for the same field. -/
theorem claim_C9 (rows : List Row) (t : String) :
    (t ∈ (processTable rows).allBrokersTo ↔
      ∃ c ∈ (processTable rows).keys,
        t ∈ ((processTable rows).data c).brokersTo) ∧
    (t ∈ (processTable rows).allBrokersThrough ↔
      ∃ c ∈ (processTable rows).keys,
        t ∈ ((processTable rows).data c).brokersThrough) ∧
    (t ∈ (processTable rows).allBrokerEntities ↔
      ∃ c ∈ (processTable rows).keys,
        t ∈ ((processTable rows).data c).brokerEntityOf) ∧
    (t ∈ (processTable rows).allRelationshipOwners ↔
      ∃ c ∈ (processTable rows).keys,
        t ∈ ((processTable rows).data c).relationshipOwner) := by
  refine ⟨?_, ?_, ?_, ?_⟩
  · constructor
    · intro h
      rw [mem_allBrokersTo] at h
      obtain ⟨r, hr, hsk, ht⟩ := h
      refine ⟨effCarrier r, ?_, ?_⟩
      · rw [mem_keys_processTable]
        exact ⟨r, hr, hsk, rfl⟩
      · rw [mem_brokersTo_data]
        exact ⟨r, hr, hsk, rfl, ht⟩
    · rintro ⟨c, -, hc⟩
      rw [mem_brokersTo_data] at hc
      obtain ⟨r, hr, hsk, -, ht⟩ := hc
      rw [mem_allBrokersTo]
      exact ⟨r, hr, hsk, ht⟩
  · constructor
    · intro h
      rw [mem_allBrokersThrough] at h
      obtain ⟨r, hr, hsk, ht⟩ := h
      refine ⟨effCarrier r, ?_, ?_⟩
      · rw [mem_keys_processTable]
        exact ⟨r, hr, hsk, rfl⟩
      · rw [mem_brokersThrough_data]
        exact ⟨r, hr, hsk, rfl, ht⟩
    · rintro ⟨c, -, hc⟩
      rw [mem_brokersThrough_data] at hc
      obtain ⟨r, hr, hsk, -, ht⟩ := hc
      rw [mem_allBrokersThrough]
      exact ⟨r, hr, hsk, ht⟩
  · constructor
    · intro h
      rw [mem_allBrokerEntities] at h
      obtain ⟨r, hr, hsk, ht⟩ := h
      refine ⟨effCarrier r, ?_, ?_⟩
      · rw [mem_keys_processTable]
        exact ⟨r, hr, hsk, rfl⟩
      · rw [mem_brokerEntityOf_data]
        exact ⟨r, hr, hsk, rfl, ht⟩
    · rintro ⟨c, -, hc⟩
      rw [mem_brokerEntityOf_data] at hc
      obtain ⟨r, hr, hsk, -, ht⟩ := hc
      rw [mem_allBrokerEntities]
      exact ⟨r, hr, hsk, ht⟩
  · constructor
    · intro h
      rw [mem_allRelationshipOwners] at h
      obtain ⟨r, hr, hsk, ht⟩ := h
      refine ⟨effCarrier r, ?_, ?_⟩
      · rw [mem_keys_processTable]
        exact ⟨r, hr, hsk, rfl⟩
      · rw [mem_relationshipOwner_data]
        exact ⟨r, hr, hsk, rfl, ht⟩
    · rintro ⟨c, -, hc⟩
      rw [mem_relationshipOwner_data] at hc
      obtain ⟨r, hr, hsk, -, ht⟩ := hc
      rw [mem_allRelationshipOwners]
      exact ⟨r, hr, hsk, ht⟩

/-- C10: a row whose carrier cell strips to the literal string
`"Unnamed Carrier"` and whose four relationship cells are all blank is
discarded by the blank-row filter exactly like a row with an empty
carrier. -/
theorem claim_C10 (pre post : List Row) (r : Row) (s : String)
    (hc : r.carrier = some s) (hs : pyStrip s = "Unnamed Carrier")
    (h1 : cellBlank r.brokersTo = true) (h2 : cellBlank r.brokersThrough = true)
    (h3 : cellBlank r.brokerEntityOf = true)
    (h4 : cellBlank r.relationshipOwner = true) :
    processTable (pre ++ r :: post) = processTable (pre ++ post) := by
  have heff : effCarrier r = "Unnamed Carrier" := by
    rw [effCarrier_some hc, if_neg (by rw [hs]; decide), hs]
  have hskip : rowSkipped r = true :=
    (rowSkipped_eq_true_iff r).mpr ⟨heff, h1, h2, h3, h4⟩
  unfold processTable
  rw [List.foldl_append, List.foldl_append, List.foldl_cons,
    processRow_of_skipped _ _ hskip]

/-- Witness for C10: a genuinely named `"Unnamed Carrier"` row with no
relationships contributes nothing. -/
theorem claim_C10_witness :
    pyStrip "Unnamed Carrier" = "Unnamed Carrier" ∧
    processTable [⟨some "Unnamed Carrier", none, none, none, none⟩] =
      processTable [] := by
  refine ⟨by decide, ?_⟩
  have h := claim_C10 [] [] ⟨some "Unnamed Carrier", none, none, none, none⟩
    "Unnamed Carrier" rfl (by decide) (by decide) (by decide) (by decide)
    (by decide)
  simpa using h

end LineOfBusiness
